import Mathlib

/-!
Verification of the jug task-parallel computation engine against its
natural-language specification.

The development shallowly embeds the relevant parts of the Python source:

* `jug/jug.py` — the `Executor` scheduler loop, `invalidate`, and
  `_check_or_sleep_until` (the `check` command);
* `jug/task.py` — `value`, `Task.run` (debug mode), `recursive_dependencies`;
* `jug/backends/encode.py` — `encode` / `decode`;
* `jug/backends/redis_store.py` — `listlocks` and the lock key layout.

Pure functions become Lean functions; the mutable store becomes an explicit
association list that is threaded through the operations; Python exceptions
become `Option`/explicit outcome constructors.  Parts of the repository that
are referenced but whose source is not available (the hash kernel
`jug/hash.py`, and `walk_dependencies` in `jug/task.py`) are modelled from
the specification; their doc comments say so explicitly.
-/

/-! ## Scheduler: one attempt at a ready task

Embedding of the body of the `for t in tasks_ready` loop of
`Executor.execute_loop` (`jug/jug.py`, lines 176-204) together with
`Executor.execute_task` (lines 221-247).  The interactions with the store
(`can_load`, `lock`) and with the user function (`run`) are captured as an
observation record: each field is the outcome the Python code would observe
at the corresponding call site during this attempt. -/

/-- Outcome of the `t.lock()` call: the call can raise (a store fault) or
return a boolean (`True` iff the lock was acquired by this worker). -/
inductive LockOutcome where
  | raised
  | got (b : Bool)
deriving DecidableEq, Repr

/-- Outcome of `task.run(...)` inside `execute_task`: normal return, or an
exception (including `KeyboardInterrupt`) propagating out of the user
function. -/
inductive RunOutcome where
  | ok
  | exc
deriving DecidableEq, Repr

/-- Observations made by one attempt at a ready task, in source order:
`can_load` re-check before locking, the `t.lock()` call, the `can_load`
re-check with the lock held, the execution of the task function, and the
`execute_keep_going` option. -/
structure AttemptObs where
  canLoadPre : Bool
  lockRes : LockOutcome
  canLoadPost : Bool
  runRes : RunOutcome
  keepGoing : Bool
deriving DecidableEq, Repr

/-- Which list the task ends up on (or how the attempt terminates):
appended to `tasks_finished`, `tasks_locked`, or `tasks_executed`; dropped
because the exception was ignored under `keep_going`; or the exception
propagates out of `execute_loop`. -/
inductive AttemptDest where
  | finished
  | lockedQ
  | executedQ
  | droppedKeepGoing
  | propagated
deriving DecidableEq, Repr

/-- Result of one attempt: destination plus whether `t.unlock()` was called
by the `finally` block. -/
structure AttemptResult where
  dest : AttemptDest
  unlocked : Bool
deriving DecidableEq, Repr

/-- Embedding of one ready-task attempt (`jug/jug.py` lines 176-204 and
`execute_task` lines 221-247).  `locked` starts `False`; the `finally:`
block runs `t.unlock()` iff `locked` is `True` at exit, on every exit path
(`continue`, fall-through, `raise`).  An exception raised by `t.lock()`
itself leaves `locked = False`. -/
def readyAttempt (o : AttemptObs) : AttemptResult :=
  if o.canLoadPre then
    { dest := .finished, unlocked := false }
  else
    match o.lockRes with
    | .raised => { dest := .propagated, unlocked := false }
    | .got b =>
      if o.canLoadPost then
        { dest := .finished, unlocked := b }
      else if !b then
        { dest := .lockedQ, unlocked := false }
      else
        match o.runRes with
        | .ok => { dest := .executedQ, unlocked := true }
        | .exc =>
          if o.keepGoing then
            { dest := .droppedKeepGoing, unlocked := true }
          else
            { dest := .propagated, unlocked := true }

/-! ## `value`: universal resolution helper

Embedding of `jug/task.py` `value` (lines 493-521) over a model of the
Python objects it dispatches on.  A `Task`'s materialized value is its
in-memory `_result` cache if present, otherwise the store entry loaded by
`Task.load` (`assert self.can_load()` makes the no-entry case an error).
A `Tasklet` is `f(value(base))` where `f` is the `_getitem(sl)` projection
created by subscripting (`TaskletMixin.__getitem__`, `_getitem` at
`jug/task.py` lines 31-51), and `_getitem.__call__(obj)` resolves the
received value and the slice once more before subscripting, so a
Tasklet's materialized value is `value(value(base))[value(sl)]`.
`CustomHash` (`jug/utils.py` lines 94-119) carries a `__jug_value__`
method returning `value(self.obj)`.

Because the second `value` application runs on the result of the first,
the recursion is not structural in the object; the evaluator therefore
takes explicit fuel bounding the depth of the Python call stack, and
keeps fuel exhaustion (`VRes.out`, a model artifact) distinct from a
Python exception (`VRes.err`): every terminating Python evaluation is
reproduced, with the same result, by every sufficiently large fuel, and
no theorem below asserts anything from an exhausted run. -/

/-- Model of the Python values `value` dispatches on.  `task cached
stored` is a `Task` whose `_result` attribute is `cached` (if set) and
whose store entry is `stored` (if present); `tasklet base sl` is the
Tasklet `base[sl]` produced by `TaskletMixin.__getitem__` (the slice is
an arbitrary object); `customHash o` is a `jug.utils.CustomHash` wrapping
`o`; `obj n` is any other object. -/
inductive PyObj where
  | noneV
  | intv (n : Int)
  | strv (s : String)
  | task (cached : Option PyObj) (stored : Option PyObj)
  | tasklet (base : PyObj) (sl : PyObj)
  | listv (xs : List PyObj)
  | tuplev (xs : List PyObj)
  | dictv (xs : List (PyObj × PyObj))
  | customHash (o : PyObj)
  | obj (n : Nat)
deriving Repr

mutual

/-- Python `==` on the modelled values (used for dict-key lookup in
subscription), structural over the supported kinds.  In Python only
hashable values occur as dict keys, so the container arms are never
exercised by key lookup; they are included to keep the function total. -/
def pyBeq : PyObj → PyObj → Bool
  | .noneV, .noneV => true
  | .intv a, .intv b => a == b
  | .strv a, .strv b => a == b
  | .task c1 s1, .task c2 s2 => pyBeqOpt c1 c2 && pyBeqOpt s1 s2
  | .tasklet b1 s1, .tasklet b2 s2 => pyBeq b1 b2 && pyBeq s1 s2
  | .listv x, .listv y => pyBeqList x y
  | .tuplev x, .tuplev y => pyBeqList x y
  | .dictv x, .dictv y => pyBeqPairs x y
  | .customHash a, .customHash b => pyBeq a b
  | .obj a, .obj b => a == b
  | _, _ => false
termination_by a _b => sizeOf a

/-- `pyBeq` lifted to optional values. -/
def pyBeqOpt : Option PyObj → Option PyObj → Bool
  | none, none => true
  | some a, some b => pyBeq a b
  | _, _ => false
termination_by a _b => sizeOf a

/-- `pyBeq` lifted elementwise to lists. -/
def pyBeqList : List PyObj → List PyObj → Bool
  | [], [] => true
  | a :: as, b :: bs => pyBeq a b && pyBeqList as bs
  | _, _ => false
termination_by a _b => sizeOf a

/-- `pyBeq` lifted pairwise to dict entries. -/
def pyBeqPairs : List (PyObj × PyObj) → List (PyObj × PyObj) → Bool
  | [], [] => true
  | (k1, v1) :: ps, (k2, v2) :: qs =>
    pyBeq k1 k2 && pyBeq v1 v2 && pyBeqPairs ps qs
  | _, _ => false
termination_by a _b => sizeOf a

end

/-- Python sequence index normalization: a negative index counts from the
end; an index out of range raises `IndexError` (`none`). -/
def pyIndex (len : Nat) (n : Int) : Option Nat :=
  let m := if n < 0 then n + len else n
  if 0 ≤ m ∧ m < len then some m.toNat else none

/-- Subscription `obj[sl]` as used by `_getitem.__call__` after both the
object and the slice have been value-resolved: index access (with
Python's negative-index convention) on lists, tuples and strings, key
lookup by `==` on dicts; `IndexError`, `KeyError` and `TypeError` (a
non-subscriptable object or an unsupported index type) are modelled as
`none`.  Python `slice(...)` objects (`t[1:3]`) are not modelled. -/
def pySubscript (v sl : PyObj) : Option PyObj :=
  match v, sl with
  | .listv xs, .intv n => (pyIndex xs.length n).bind (fun i => xs.get? i)
  | .tuplev xs, .intv n => (pyIndex xs.length n).bind (fun i => xs.get? i)
  | .strv s, .intv n =>
    (pyIndex s.data.length n).bind
      (fun i => (s.data.get? i).map (fun c => .strv ⟨[c]⟩))
  | .dictv ps, k => (ps.find? (fun p => pyBeq p.1 k)).map (fun p => p.2)
  | _, _ => none

/-- Outcome of one fuel-bounded evaluation of `value`: `out` is fuel
exhaustion (model artifact), `err` a Python exception (failed `assert
self.can_load()`, `IndexError`, `KeyError`, `TypeError`), `val v` a
normal return. -/
inductive VRes where
  | out
  | err
  | val (v : PyObj)
deriving Repr

/-- Outcome of evaluating `value` elementwise over a list. -/
inductive VResL where
  | out
  | err
  | vals (vs : List PyObj)
deriving Repr

/-- Outcome of evaluating `value` over the values of dict entries. -/
inductive VResP where
  | out
  | err
  | vals (vs : List (PyObj × PyObj))
deriving Repr

/-- Exception/exhaustion propagation: continue with the value of a
successful sub-evaluation. -/
def vbind (r : VRes) (f : PyObj → VRes) : VRes :=
  match r with
  | .out => .out
  | .err => .err
  | .val v => f v

/-- A subscription result as an evaluation outcome (`None` analogue of a
raised `IndexError`/`KeyError`/`TypeError`). -/
def liftSub (o : Option PyObj) : VRes :=
  match o with
  | some r => .val r
  | none => .err

/-- Propagation from a list evaluation into an object result. -/
def lmapVal (r : VResL) (g : List PyObj → PyObj) : VRes :=
  match r with
  | .out => .out
  | .err => .err
  | .vals vs => .val (g vs)

/-- Propagation from a dict-entries evaluation into an object result. -/
def pmapVal (r : VResP) (g : List (PyObj × PyObj) → PyObj) : VRes :=
  match r with
  | .out => .out
  | .err => .err
  | .vals vs => .val (g vs)

/-- Propagation of one element's evaluation into a list result. -/
def vbindL (r : VRes) (f : PyObj → VResL) : VResL :=
  match r with
  | .out => .out
  | .err => .err
  | .val v => f v

/-- Propagation of the tail's evaluation into a list result. -/
def lmapL (r : VResL) (g : List PyObj → List PyObj) : VResL :=
  match r with
  | .out => .out
  | .err => .err
  | .vals vs => .vals (g vs)

/-- Propagation of one entry value's evaluation into a dict result. -/
def vbindP (r : VRes) (f : PyObj → VResP) : VResP :=
  match r with
  | .out => .out
  | .err => .err
  | .val v => f v

/-- Propagation of the remaining entries' evaluation into a dict
result. -/
def pmapP (r : VResP)
    (g : List (PyObj × PyObj) → List (PyObj × PyObj)) : VResP :=
  match r with
  | .out => .out
  | .err => .err
  | .vals vs => .vals (g vs)

mutual

/-- Embedding of `value` (`jug/task.py` lines 493-521), in source branch
order: a `Task` returns its materialized value (`_result` if cached, else
the store entry, an error if neither); a `Tasklet` returns
`f(value(base))` with `f = _getitem(sl)`, i.e. `value` of the base, then
`value` of that result and of the slice, then subscription; `list`,
`tuple` and `dict` (exact types) recurse, with dict keys passed through
unchanged; an object with `__jug_value__` returns that method's result
(for `CustomHash` this is `value(self.obj)`); anything else is returned
unchanged.  Each nested Python `value` call costs one unit of fuel. -/
def pyValueF : Nat → PyObj → VRes
  | 0, _ => .out
  | fuel + 1, x =>
    match x with
    | .task cached stored =>
      match cached with
      | some r => .val r
      | none =>
        match stored with
        | some r => .val r
        | none => .err
    | .tasklet base sl =>
      vbind (pyValueF fuel base) (fun b =>
        vbind (pyValueF fuel b) (fun b2 =>
          vbind (pyValueF fuel sl) (fun s2 =>
            liftSub (pySubscript b2 s2))))
    | .listv xs => lmapVal (pyValueListF fuel xs) (fun vs => .listv vs)
    | .tuplev xs => lmapVal (pyValueListF fuel xs) (fun vs => .tuplev vs)
    | .dictv ps => pmapVal (pyValuePairsF fuel ps) (fun vs => .dictv vs)
    | .customHash o => pyValueF fuel o
    | .noneV => .val .noneV
    | .intv n => .val (.intv n)
    | .strv s => .val (.strv s)
    | .obj n => .val (.obj n)
termination_by fuel x => (fuel, sizeOf x)

/-- Elementwise evaluation over a list (each element is one nested
`value` call). -/
def pyValueListF : Nat → List PyObj → VResL
  | _, [] => .vals []
  | fuel, x :: xs =>
    vbindL (pyValueF fuel x) (fun v =>
      lmapL (pyValueListF fuel xs) (fun vs => v :: vs))
termination_by fuel xs => (fuel, sizeOf xs)

/-- Evaluation over dict entries: keys kept, values resolved. -/
def pyValuePairsF : Nat → List (PyObj × PyObj) → VResP
  | _, [] => .vals []
  | fuel, (k, w) :: ps =>
    vbindP (pyValueF fuel w) (fun v =>
      pmapP (pyValuePairsF fuel ps) (fun vs => (k, v) :: vs))
termination_by fuel ps => (fuel, sizeOf ps)

end

/-- Inversion of `vbind` on a successful outcome. -/
theorem vbind_val (r : VRes) (f : PyObj → VRes) (v : PyObj)
    (h : vbind r f = VRes.val v) : ∃ b, r = VRes.val b ∧ f b = VRes.val v := by
  cases r with
  | out => simp [vbind] at h
  | err => simp [vbind] at h
  | val b => exact ⟨b, rfl, h⟩

/-- Inversion of `liftSub` on a successful outcome. -/
theorem liftSub_val (o : Option PyObj) (v : PyObj)
    (h : liftSub o = VRes.val v) : o = some v := by
  cases o with
  | none => simp [liftSub] at h
  | some r =>
    simp only [liftSub, VRes.val.injEq] at h
    rw [h]

/-- Inversion of `lmapVal` on a successful outcome. -/
theorem lmapVal_val (r : VResL) (g : List PyObj → PyObj) (v : PyObj)
    (h : lmapVal r g = VRes.val v) :
    ∃ vs, r = VResL.vals vs ∧ v = g vs := by
  cases r with
  | out => simp [lmapVal] at h
  | err => simp [lmapVal] at h
  | vals vs =>
    simp only [lmapVal, VRes.val.injEq] at h
    exact ⟨vs, rfl, h.symm⟩

/-- Inversion of `pmapVal` on a successful outcome. -/
theorem pmapVal_val (r : VResP) (g : List (PyObj × PyObj) → PyObj)
    (v : PyObj) (h : pmapVal r g = VRes.val v) :
    ∃ vs, r = VResP.vals vs ∧ v = g vs := by
  cases r with
  | out => simp [pmapVal] at h
  | err => simp [pmapVal] at h
  | vals vs =>
    simp only [pmapVal, VRes.val.injEq] at h
    exact ⟨vs, rfl, h.symm⟩

/-- Inversion of `vbindL` on a successful outcome. -/
theorem vbindL_vals (r : VRes) (f : PyObj → VResL) (vs : List PyObj)
    (h : vbindL r f = VResL.vals vs) :
    ∃ b, r = VRes.val b ∧ f b = VResL.vals vs := by
  cases r with
  | out => simp [vbindL] at h
  | err => simp [vbindL] at h
  | val b => exact ⟨b, rfl, h⟩

/-- Inversion of `lmapL` on a successful outcome. -/
theorem lmapL_vals (r : VResL) (g : List PyObj → List PyObj)
    (vs : List PyObj) (h : lmapL r g = VResL.vals vs) :
    ∃ bs, r = VResL.vals bs ∧ vs = g bs := by
  cases r with
  | out => simp [lmapL] at h
  | err => simp [lmapL] at h
  | vals bs =>
    simp only [lmapL, VResL.vals.injEq] at h
    exact ⟨bs, rfl, h.symm⟩

/-- Inversion of `vbindP` on a successful outcome. -/
theorem vbindP_vals (r : VRes) (f : PyObj → VResP)
    (vs : List (PyObj × PyObj)) (h : vbindP r f = VResP.vals vs) :
    ∃ b, r = VRes.val b ∧ f b = VResP.vals vs := by
  cases r with
  | out => simp [vbindP] at h
  | err => simp [vbindP] at h
  | val b => exact ⟨b, rfl, h⟩

/-- Inversion of `pmapP` on a successful outcome. -/
theorem pmapP_vals (r : VResP)
    (g : List (PyObj × PyObj) → List (PyObj × PyObj))
    (vs : List (PyObj × PyObj)) (h : pmapP r g = VResP.vals vs) :
    ∃ bs, r = VResP.vals bs ∧ vs = g bs := by
  cases r with
  | out => simp [pmapP] at h
  | err => simp [pmapP] at h
  | vals bs =>
    simp only [pmapP, VResP.vals.injEq] at h
    exact ⟨bs, rfl, h.symm⟩

/-! ## Scheduler: the `execute_loop` pass structure

Embedding of `Executor.execute_loop` (`jug/jug.py`, lines 142-219).  Tasks
are identified by their position in the executor's task list.  Because the
loop coordinates with peer workers only through the store, the store's
answers at every call site (the classification checks of lines 157-165 and
the per-attempt observations of lines 176-204) are supplied by an
environment function `env pass t`; within one pass each observation is
read exactly once, in source order. -/

/-- Observations one task contributes to one pass: the classification
calls `t.can_load()`, `t.is_locked()`, `t.can_run()` of lines 157-165,
plus the attempt observations used if the task lands on `tasks_ready`. -/
structure SchedObs where
  canLoadC : Bool
  isLockedC : Bool
  canRunC : Bool
  att : AttemptObs
deriving DecidableEq, Repr

/-- Result of classifying `tasks_current` (lines 157-165), in list order:
`(tasks_waiting, tasks_ready, tasks_locked, tasks_finished additions)`. -/
def classifyPass (obs : Nat → SchedObs) (current : List Nat) :
    List Nat × List Nat × List Nat × List Nat :=
  match current with
  | [] => ([], [], [], [])
  | t :: rest =>
    let (w, r, l, f) := classifyPass obs rest
    if (obs t).canLoadC then (w, r, l, t :: f)
    else if (obs t).isLockedC then (w, r, t :: l, f)
    else if (obs t).canRunC then (w, t :: r, l, f)
    else (t :: w, r, l, f)

/-- Result of the `for t in tasks_ready` loop (lines 176-204): additions to
`tasks_locked`, additions to `tasks_finished`, and `tasks_executed`; or
`Except.error ()` when an exception propagated (terminating
`execute_loop`). -/
def attemptPhase (obs : Nat → SchedObs) :
    List Nat → Except Unit (List Nat × List Nat × List Nat)
  | [] => .ok ([], [], [])
  | t :: rest =>
    let res := readyAttempt (obs t).att
    match res.dest with
    | .propagated => .error ()
    | d => do
      let (l, f, e) ← attemptPhase obs rest
      match d with
      | .finished => pure (l, t :: f, e)
      | .lockedQ => pure (t :: l, f, e)
      | .executedQ => pure (l, f, t :: e)
      | _ => pure (l, f, e)

/-- Outcome of `execute_loop`: `returned ret total` records the Python
return value `ret` together with the final value of the accumulator
variable `tasks_total_executed` (`total`); `raised` is an exception
propagating out of the loop; `fuelOut` marks exhaustion of the recursion
fuel (never reached when the fuel exceeds the number of passes). -/
inductive LoopResult where
  | returned (ret : List Nat) (total : List Nat)
  | raised
  | fuelOut
deriving DecidableEq, Repr

/-- One iteration structure of the `while tasks_current` loop of
`execute_loop` (lines 151-219): classify, attempt the ready tasks, extend
`tasks_total_executed`, recompute `tasks_current = tasks_waiting +
tasks_locked`, then either sleep and decrement `wait_cycles` or return
`tasks_executed` when the frontier stalled with the counter at zero; when
`tasks_current` empties, return `tasks_total_executed`. -/
def executeLoopAux (env : Nat → Nat → SchedObs) :
    Nat → Nat → List Nat → List Nat → Nat → LoopResult
  | _, _, _, _, 0 => .fuelOut
  | passIdx, waitCycles, current, total, fuel + 1 =>
    if current.isEmpty then
      .returned total total
    else
      let (w, r, l, _f) := classifyPass (env passIdx) current
      match attemptPhase (env passIdx) r with
      | .error _ => .raised
      | .ok (lAdd, _fAdd, executed) =>
        let total2 := total ++ executed
        let current2 := w ++ (l ++ lAdd)
        if !current2.isEmpty && executed.isEmpty then
          if waitCycles > 0 then
            executeLoopAux env (passIdx + 1) (waitCycles - 1) current2 total2 fuel
          else
            .returned executed total2
        else
          executeLoopAux env (passIdx + 1) waitCycles current2 total2 fuel

/-- Embedding of `Executor.execute_loop(execute_nr_wait_cycles)`:
`tasks_current` starts as the executor's task list,
`tasks_total_executed` starts empty. -/
def executeLoop (env : Nat → Nat → SchedObs) (nrWaitCycles : Nat)
    (tasks : List Nat) (fuel : Nat) : LoopResult :=
  executeLoopAux env 0 nrWaitCycles tasks [] fuel

/-- Environment for the two-task stall scenario: task `0` is ready in pass
`0` and executes successfully (its attempt acquires the lock and `run`
returns); task `1` is held by a peer worker (`is_locked`) in every pass
and never becomes loadable. -/
def envStall : Nat → Nat → SchedObs := fun _ t =>
  if t = 0 then
    { canLoadC := false, isLockedC := false, canRunC := true,
      att := { canLoadPre := false, lockRes := .got true,
               canLoadPost := false, runRes := .ok, keepGoing := false } }
  else
    { canLoadC := false, isLockedC := true, canRunC := false,
      att := { canLoadPre := false, lockRes := .got false,
               canLoadPost := false, runRes := .ok, keepGoing := false } }

/-! ## Helper lemmas about `pyValueF` on containers -/

/-- Elementwise description of a successful `pyValueListF`. -/
theorem pyValueListF_spec : ∀ fuel xs vs,
    pyValueListF fuel xs = VResL.vals vs →
    vs.length = xs.length ∧
      List.Forall₂ (fun a b => pyValueF fuel a = VRes.val b) xs vs := by
  intro fuel xs
  induction xs with
  | nil =>
    intro vs h
    simp only [pyValueListF, VResL.vals.injEq] at h
    subst h
    exact ⟨rfl, List.Forall₂.nil⟩
  | cons x xs ih =>
    intro vs h
    simp only [pyValueListF] at h
    obtain ⟨v, hx, h2⟩ := vbindL_vals _ _ _ h
    obtain ⟨bs, hxs, hcons⟩ := lmapL_vals _ _ _ h2
    subst hcons
    obtain ⟨hl, hf⟩ := ih bs hxs
    exact ⟨by simp [hl], List.Forall₂.cons hx hf⟩

/-- Elementwise description of a successful `pyValuePairsF`: keys are
kept, values are resolved. -/
theorem pyValuePairsF_spec : ∀ fuel ps qs,
    pyValuePairsF fuel ps = VResP.vals qs →
    qs.map Prod.fst = ps.map Prod.fst ∧
      List.Forall₂ (fun a b => pyValueF fuel a.2 = VRes.val b.2) ps qs := by
  intro fuel ps
  induction ps with
  | nil =>
    intro qs h
    simp only [pyValuePairsF, VResP.vals.injEq] at h
    subst h
    exact ⟨rfl, List.Forall₂.nil⟩
  | cons p ps ih =>
    intro qs h
    obtain ⟨k, w⟩ := p
    simp only [pyValuePairsF] at h
    obtain ⟨v, hx, h2⟩ := vbindP_vals _ _ _ h
    obtain ⟨bs, hps, hcons⟩ := pmapP_vals _ _ _ h2
    subst hcons
    obtain ⟨hk, hf⟩ := ih bs hps
    exact ⟨by simp [hk], List.Forall₂.cons (by simpa using hx) hf⟩

/-! ## Claim C2 -/

/-- C2: for every ready task attempted in a scheduler pass, on every exit
path of the attempt (loadable, lock lost, executed, exception from the
task function, or even an exception from the lock call itself), the
`finally` block releases the task's lock if and only if this worker's
`t.lock()` call returned `True` in that attempt; a lock that was not
acquired here is never released. -/
theorem task_lock_released_iff_acquired (o : AttemptObs) :
    (readyAttempt o).unlocked = true ↔
      (o.canLoadPre = false ∧ o.lockRes = LockOutcome.got true) := by
  obtain ⟨c1, lr, c2, rr, kg⟩ := o
  cases lr with
  | raised => cases c1 <;> simp [readyAttempt]
  | got b => cases c1 <;> cases b <;> cases c2 <;> cases rr <;> cases kg <;>
      simp [readyAttempt]

/-! ## Claim C7 -/

/-- C7 counterexample: the claim says every input that is not a
Task/Tasklet and not a list/tuple/dict is returned unchanged, but an
object exposing `__jug_value__` (such as `jug.utils.CustomHash`) is
resolved through that method instead: `value(CustomHash(3, h))` returns
`3`, not the `CustomHash` object (shown at recursion depth 2; every
larger fuel evaluates identically). -/
theorem value_customhash_counterexample :
    pyValueF 2 (PyObj.customHash (PyObj.intv 3)) = VRes.val (PyObj.intv 3) ∧
      PyObj.intv 3 ≠ PyObj.customHash (PyObj.intv 3) := by
  constructor
  · simp [pyValueF]
  · intro h
    exact PyObj.noConfusion h

/-- C7 amended: `value(x)` returns the materialized task value for a Task
(`_result` if cached, else the store entry, an error if neither) and for
a Tasklet (`value` of the base, then `value` of that result and of the
slice, then subscription — `value(value(base))[value(sl)]`, per
`Tasklet.value` and `_getitem.__call__`); it maps itself over lists,
tuples and dict values (dict keys unchanged, shape and length
preserved); for an object exposing `__jug_value__` it returns that
method's result (`value(x.obj)` for `CustomHash`); every other input is
returned unchanged.  Each part quantifies over the fuel, so it describes
every terminating evaluation. -/
theorem value_dispatch_amended :
    (∀ fuel r s, pyValueF (fuel + 1) (PyObj.task (some r) s) = VRes.val r)
    ∧ (∀ fuel r, pyValueF (fuel + 1) (PyObj.task none (some r)) = VRes.val r)
    ∧ (∀ fuel, pyValueF (fuel + 1) (PyObj.task none none) = VRes.err)
    ∧ (∀ fuel base sl v,
        pyValueF (fuel + 1) (PyObj.tasklet base sl) = VRes.val v →
        ∃ b b2 s2, pyValueF fuel base = VRes.val b ∧
          pyValueF fuel b = VRes.val b2 ∧
          pyValueF fuel sl = VRes.val s2 ∧
          pySubscript b2 s2 = some v)
    ∧ (∀ fuel xs y, pyValueF (fuel + 1) (PyObj.listv xs) = VRes.val y →
        ∃ vs, y = PyObj.listv vs ∧ vs.length = xs.length ∧
          List.Forall₂ (fun a b => pyValueF fuel a = VRes.val b) xs vs)
    ∧ (∀ fuel xs y, pyValueF (fuel + 1) (PyObj.tuplev xs) = VRes.val y →
        ∃ vs, y = PyObj.tuplev vs ∧ vs.length = xs.length ∧
          List.Forall₂ (fun a b => pyValueF fuel a = VRes.val b) xs vs)
    ∧ (∀ fuel ps y, pyValueF (fuel + 1) (PyObj.dictv ps) = VRes.val y →
        ∃ qs, y = PyObj.dictv qs ∧ qs.map Prod.fst = ps.map Prod.fst ∧
          List.Forall₂ (fun a b => pyValueF fuel a.2 = VRes.val b.2) ps qs)
    ∧ (∀ fuel o, pyValueF (fuel + 1) (PyObj.customHash o) = pyValueF fuel o)
    ∧ (∀ fuel, pyValueF (fuel + 1) PyObj.noneV = VRes.val PyObj.noneV)
    ∧ (∀ fuel n, pyValueF (fuel + 1) (PyObj.intv n) = VRes.val (PyObj.intv n))
    ∧ (∀ fuel s, pyValueF (fuel + 1) (PyObj.strv s) = VRes.val (PyObj.strv s))
    ∧ (∀ fuel n, pyValueF (fuel + 1) (PyObj.obj n) = VRes.val (PyObj.obj n)) := by
  refine ⟨fun fuel r s => by simp [pyValueF],
    fun fuel r => by simp [pyValueF],
    fun fuel => by simp [pyValueF],
    ?_, ?_, ?_, ?_,
    fun fuel o => by simp [pyValueF],
    fun fuel => by simp [pyValueF],
    fun fuel n => by simp [pyValueF],
    fun fuel s => by simp [pyValueF],
    fun fuel n => by simp [pyValueF]⟩
  · intro fuel base sl v h
    simp only [pyValueF] at h
    obtain ⟨b, hb, h2⟩ := vbind_val _ _ _ h
    obtain ⟨b2, hb2, h3⟩ := vbind_val _ _ _ h2
    obtain ⟨s2, hs, h4⟩ := vbind_val _ _ _ h3
    exact ⟨b, b2, s2, hb, hb2, hs, liftSub_val _ _ h4⟩
  · intro fuel xs y h
    simp only [pyValueF] at h
    obtain ⟨vs, hl, hy⟩ := lmapVal_val _ _ _ h
    obtain ⟨hlen, hf⟩ := pyValueListF_spec fuel xs vs hl
    exact ⟨vs, hy, hlen, hf⟩
  · intro fuel xs y h
    simp only [pyValueF] at h
    obtain ⟨vs, hl, hy⟩ := lmapVal_val _ _ _ h
    obtain ⟨hlen, hf⟩ := pyValueListF_spec fuel xs vs hl
    exact ⟨vs, hy, hlen, hf⟩
  · intro fuel ps y h
    simp only [pyValueF] at h
    obtain ⟨qs, hl, hy⟩ := pmapVal_val _ _ _ h
    obtain ⟨hk, hf⟩ := pyValuePairsF_spec fuel ps qs hl
    exact ⟨qs, hy, hk, hf⟩

/-- Witness for `value_dispatch_amended`: the Tasklet conjunct applied to
the concrete Tasklet `t["k"]` where `t` is a Task whose cached result is
the dict `{"k": 5}`; its materialized value is `5`. -/
theorem value_dispatch_amended_witness :
    ∃ b b2 s2,
      pyValueF 2 (PyObj.task
          (some (PyObj.dictv [(PyObj.strv "k", PyObj.intv 5)])) none) =
        VRes.val b ∧
      pyValueF 2 b = VRes.val b2 ∧
      pyValueF 2 (PyObj.strv "k") = VRes.val s2 ∧
      pySubscript b2 s2 = some (PyObj.intv 5) :=
  value_dispatch_amended.2.2.2.1 2
    (PyObj.task (some (PyObj.dictv [(PyObj.strv "k", PyObj.intv 5)])) none)
    (PyObj.strv "k") (PyObj.intv 5)
    (by simp [pyValueF, pyValuePairsF, vbind, vbindP, pmapP, pmapVal,
      liftSub, pySubscript, pyBeq, List.find?])

/-! ## Claim C3 -/

/-- C3: evaluation of `execute_loop` on the stall scenario.  Task `0` is
executed in the first pass; task `1` stays locked by a peer, so the second
pass stalls with the wait-cycle counter at zero.  The loop terminates, but
it returns the (necessarily empty) per-pass `tasks_executed` list instead
of the accumulated `tasks_total_executed = [0]`: the list of all tasks
executed by this worker during the whole loop is lost at this exit. -/
theorem execute_loop_stall_return_value :
    executeLoop envStall 0 [0, 1] 4 = LoopResult.returned [] [0] ∧
      ([] : List Nat) ≠ [0] := by
  exact ⟨rfl, by simp⟩

/-! ## Store model

The backend store contract of §4.2: a persistent mapping `hash → bytes`
with `dump`, `load`, `can_load`, `remove`.  It is modelled as an
association list keyed by the hash (newest entry first, as a Python dict
assignment), with the encoded result abstracted to a `Nat`.  This is the
behaviour shared by all backends (`dict_store`, `file_store`,
`redis_store`); the key type is a parameter because the graph-level claims
use numeric hashes while the task-level claims use hex-digest strings. -/

/-- Store contents: an association list `hash → encoded result`. -/
def JStore (κ : Type) : Type := List (κ × Nat)

/-- Membership check behind `store.can_load(hash)`. -/
def storeCanLoad {κ : Type} [DecidableEq κ] (st : JStore κ) (h : κ) : Bool :=
  (st : List (κ × Nat)).any (fun kv => decide (kv.1 = h))

/-- Entry creation behind `store.dump(value, hash)`. -/
def storeDump {κ : Type} (st : JStore κ) (h : κ) (v : Nat) : JStore κ :=
  (h, v) :: (st : List (κ × Nat))

/-- Entry deletion behind `store.remove(hash)`. -/
def storeRemove {κ : Type} [DecidableEq κ] (st : JStore κ) (h : κ) : JStore κ :=
  (st : List (κ × Nat)).filter (fun kv => decide (kv.1 ≠ h))

/-- Lookup behind `store.load(hash)` (`none` models the missing-entry
error). -/
def storeLoad {κ : Type} [DecidableEq κ] (st : JStore κ) (h : κ) : Option Nat :=
  ((st : List (κ × Nat)).find? (fun kv => decide (kv.1 = h))).map (fun kv => kv.2)

/-! ## `Task.run` in debug mode

Embedding of `Task.run` (`jug/task.py`, lines 139-161) together with
`Task._compute_set_hash` (292-299), `Task._check_hash` (302-306) and
`Task.__jug_hash__` (307-313).  The hash of the task is a function of the
argument values at the time `_compute_set_hash` runs, so a task function
that mutates an argument makes the recomputed hash differ after
`_execute`; the model captures this with two digests, `preHash` (computed
before execution) and `postHash` (computed after).  `_compute_set_hash`
memoizes its result by overwriting `__jug_hash__`; the memo is threaded
explicitly. -/

/-- Model of one task for `Task.run`: the digest `_compute_set_hash`
yields before execution, the digest it yields after execution (different
iff the task function mutated an argument), and the computed result. -/
structure DebugTask where
  preHash : String
  postHash : String
  result : Nat
deriving DecidableEq, Repr

/-- Value of `Task._compute_set_hash()` as a function of whether
`Task._execute()` has already run. -/
def computeSetHashAt (t : DebugTask) (executed : Bool) : String :=
  if executed then t.postHash else t.preHash

/-- Result of the `Task.run` model: the store after the call, the
`__jug_hash__` memo after the call, and whether `_check_hash` raised the
hash-mismatch `RuntimeError`. -/
structure RunModelOut where
  store : JStore String
  memo : Option String
  hashError : Bool

/-- Embedding of `Task.run(force=False, save, debug_mode)` (`jug/task.py`
lines 139-161).  In source order: if `debug_mode`, `_check_hash` compares
`self.hash()` (the memo, or a fresh `_compute_set_hash`) against a fresh
`_compute_set_hash`, re-memoizing, and raises on mismatch; then
`_execute` runs (this is where argument mutation happens); if `save`,
`dump` stores the result under `self.hash()` — the memoized digest; if
`debug_mode`, `_check_hash` runs again and raises on mismatch. -/
def taskRunModel (t : DebugTask) (memo0 : Option String) (st : JStore String)
    (debugMode save : Bool) : RunModelOut :=
  let c0 := computeSetHashAt t false
  if debugMode = true ∧ memo0.getD c0 ≠ c0 then
    { store := st, memo := some c0, hashError := true }
  else
    let memo1 := if debugMode then some c0 else memo0
    let name := memo1.getD (computeSetHashAt t true)
    let memo2 := if save then some name else memo1
    let st2 := if save then storeDump st name t.result else st
    let c1 := computeSetHashAt t true
    if debugMode = true ∧ memo2.getD c1 ≠ c1 then
      { store := st2, memo := some c1, hashError := true }
    else
      { store := st2, memo := if debugMode then some c1 else memo2,
        hashError := false }

/-! ## Claim C10 -/

/-- C10: in debug mode with saving enabled, a task whose function mutates
an argument (so the post-run `_compute_set_hash` differs from the pre-run
digest) raises the hash-mismatch error, but only after the computed
result has already been dumped to the store under the pre-run memoized
hash; the store does not stay unchanged on this error. -/
theorem debug_run_dumps_before_hash_error (t : DebugTask) (st : JStore String)
    (memo0 : Option String) (hm : memo0 = none ∨ memo0 = some t.preHash)
    (hmut : t.postHash ≠ t.preHash) :
    (taskRunModel t memo0 st true true).hashError = true ∧
      (taskRunModel t memo0 st true true).store = storeDump st t.preHash t.result := by
  have hpre : memo0.getD t.preHash = t.preHash := by
    rcases hm with h | h <;> simp [h]
  have hne : ¬ (true = true ∧ t.preHash ≠ t.preHash) := by simp
  have hra : (true = true ∧ t.preHash ≠ t.postHash) := ⟨rfl, Ne.symm hmut⟩
  simp [taskRunModel, computeSetHashAt, hpre, hne, hra]

/-- Witness for `debug_run_dumps_before_hash_error` at a concrete mutating
task. -/
theorem debug_run_dumps_before_hash_error_witness :
    (taskRunModel ⟨"aa", "bb", 7⟩ none [] true true).hashError = true ∧
      (taskRunModel ⟨"aa", "bb", 7⟩ none [] true true).store =
        storeDump [] "aa" 7 :=
  debug_run_dumps_before_hash_error ⟨"aa", "bb", 7⟩ [] none (Or.inl rfl)
    (by decide)

/-! ## Task registry graph

The process-global ordered registry `task.alltasks`.  A task is a node
with its fully qualified `name`, its `hash()` digest (abstracted to a
`Nat`), and the list yielded by `Task.dependencies()` (`jug/task.py`
lines 250-279), given as positions of the dependency tasks in the
registry.  A task can only depend on tasks constructed before it (§9 of
the specification: the DAG is acyclic by construction), which is the
`DepsClosed` well-formedness condition. -/

/-- One registry entry: qualified name, hash digest, and the registry
positions of the first-level dependencies yielded by
`Task.dependencies()`. -/
structure TaskNode where
  name : String
  hash : Nat
  deps : List Nat
deriving DecidableEq, Repr

/-- Registry access with a default node (never used on well-formed
indices). -/
def nodeAt (reg : List TaskNode) (i : Nat) : TaskNode :=
  reg.getD i ⟨"", 0, []⟩

/-- Hash of the task at registry position `i`. -/
def hashAt (reg : List TaskNode) (i : Nat) : Nat :=
  (nodeAt reg i).hash

/-- Name of the task at registry position `i`. -/
def nameAt (reg : List TaskNode) (i : Nat) : String :=
  (nodeAt reg i).name

/-- First-level dependencies of the task at registry position `i`. -/
def depsAt (reg : List TaskNode) (i : Nat) : List Nat :=
  (nodeAt reg i).deps

/-- Well-formedness of a registry: every dependency was constructed
before its dependent (its position is strictly smaller). -/
def DepsClosed (reg : List TaskNode) : Prop :=
  ∀ i, i < reg.length → ∀ d ∈ depsAt reg i, d < i

/-- Embedding of `recursive_dependencies(t)` (`jug/task.py` lines
464-491) with unlimited depth (`max_level = -1`, the default used by
`_check_or_sleep_until`): every dependency is yielded followed by its own
recursive dependencies.  The generator recursion is bounded here by
explicit fuel; on a `DepsClosed` registry any fuel of at least `i + 1`
gives the full traversal from position `i`. -/
def recDepsFuel (reg : List TaskNode) : Nat → Nat → List Nat
  | 0, _ => []
  | fuel + 1, i => (depsAt reg i).flatMap (fun d => d :: recDepsFuel reg fuel d)

/-- Full recursive-dependency list from registry position `i` (fuel
`reg.length` saturates every chain of a `DepsClosed` registry). -/
def recDeps (reg : List TaskNode) (i : Nat) : List Nat :=
  recDepsFuel reg reg.length i

/-! ## Claim C5: the `check` command

Embedding of `_check_or_sleep_until(store, sleep_until=False)`
(`jug/jug.py` lines 364-383), whose return value `check` passes to
`sys.exit` (lines 335-347).  The scan walks the registry in reverse
construction order, keeping an `active` set; a task not in `active` is
skipped; a task whose result is not loadable makes the command return 1;
a loadable task removes all its recursive dependencies from `active`.
The store is abstracted to the predicate `loadable` on hashes (what
`t.can_load(store)` returns this pass). -/

/-- One traversal of the reversed registry with the `active` set. -/
def checkScanAux (reg : List TaskNode) (loadable : Nat → Bool) :
    List Nat → List Nat → Nat
  | [], _ => 0
  | i :: rest, active =>
    if i ∈ active then
      if loadable (hashAt reg i) then
        checkScanAux reg loadable rest
          (active.filter (fun j => decide (j ∉ recDeps reg i)))
      else 1
    else checkScanAux reg loadable rest active

/-- Embedding of the `check` exit code: `_check_or_sleep_until(store,
False)` over the whole registry. -/
def jugCheck (reg : List TaskNode) (loadable : Nat → Bool) : Nat :=
  checkScanAux reg loadable (List.range reg.length).reverse
    (List.range reg.length)

/-- Two-task registry for the C5 counterexample: task 1 depends on task
0; only task 1 has a loadable result. -/
def regC5 : List TaskNode :=
  [⟨"jugfile.f", 10, []⟩, ⟨"jugfile.g", 11, [0]⟩]

/-- Store predicate for the C5 counterexample: only hash 11 is present. -/
def loadC5 : Nat → Bool := fun h => h == 11

/-- C5 counterexample: `check` exits 0 although task 0's result is not
loadable — the scan sees task 1 first (reverse order), finds it loadable,
and prunes its recursive dependency task 0 from the active set without
ever checking it.  This refutes "exit 0 iff every task is loadable". -/
theorem check_exit_zero_counterexample :
    jugCheck regC5 loadC5 = 0 ∧ loadC5 (hashAt regC5 0) = false ∧
      0 < regC5.length := by decide

/-- C5 amended: `check` exits 0 if every task in the registry is
loadable, and whenever it exits 1 some task in the registry is not
loadable; the converse of the first part fails because the scan skips
recursive dependencies of tasks already found loadable. -/
theorem check_exit_code_amended (reg : List TaskNode) (loadable : Nat → Bool) :
    ((∀ i, i < reg.length → loadable (hashAt reg i) = true) →
        jugCheck reg loadable = 0)
    ∧ (jugCheck reg loadable = 1 →
        ∃ i, i < reg.length ∧ loadable (hashAt reg i) = false) := by
  have all0 : ∀ l active, (∀ i ∈ l, loadable (hashAt reg i) = true) →
      checkScanAux reg loadable l active = 0 := by
    intro l
    induction l with
    | nil => intro active _; rfl
    | cons i rest ih =>
      intro active hall
      by_cases hmem : i ∈ active
      · have hld := hall i (List.mem_cons_self i rest)
        simp [checkScanAux, hmem, hld]
        exact ih _ (fun j hj => hall j (List.mem_cons_of_mem i hj))
      · simp [checkScanAux, hmem]
        exact ih _ (fun j hj => hall j (List.mem_cons_of_mem i hj))
  have one1 : ∀ l active, checkScanAux reg loadable l active = 1 →
      ∃ i ∈ l, loadable (hashAt reg i) = false := by
    intro l
    induction l with
    | nil => intro active h; simp [checkScanAux] at h
    | cons i rest ih =>
      intro active h
      by_cases hmem : i ∈ active
      · by_cases hld : loadable (hashAt reg i) = true
        · simp [checkScanAux, hmem, hld] at h
          obtain ⟨j, hj, hjl⟩ := ih _ h
          exact ⟨j, List.mem_cons_of_mem i hj, hjl⟩
        · exact ⟨i, List.mem_cons_self i rest, by simpa using hld⟩
      · simp [checkScanAux, hmem] at h
        obtain ⟨j, hj, hjl⟩ := ih _ h
        exact ⟨j, List.mem_cons_of_mem i hj, hjl⟩
  constructor
  · intro hall
    exact all0 _ _ (fun i hi => hall i (by
      have := List.mem_reverse.mp hi
      exact List.mem_range.mp this))
  · intro h
    obtain ⟨i, hi, hil⟩ := one1 _ _ h
    exact ⟨i, List.mem_range.mp (List.mem_reverse.mp hi), hil⟩

/-- Witness for `check_exit_code_amended`: on the two-task registry with
every hash loadable, `check` exits 0. -/
theorem check_exit_code_amended_witness :
    jugCheck regC5 (fun _ => true) = 0 :=
  (check_exit_code_amended regC5 (fun _ => true)).1 (fun _ _ => rfl)

/-! ## Claim C4: the invalidation algorithm

Embedding of `invalidate(store, options)` (`jug/jug.py` lines 59-124) for
a non-dry-run invocation, with the direct name match abstracted to a
predicate `matched` on qualified names (the pattern compilation itself is
the subject of claim C6).  The source first records every directly
matched task in `invalid_tasks` (keyed by hash), then scans every task in
registry order with `scan_task_dependencies`, marking a task invalid when
the dependency walk reaches a task whose hash is already marked, and
finally calls `store.remove(t.hash())` for every marked task.

`walk_dependencies` is not under `src/`; following the specification
(§4.4: "memoized depth-first traversal over `dependencies()`; the memo
stores, per hash, whether the task is tainted"), the scan of one task is
modelled as: the task becomes invalid iff some first-level dependency's
hash is already marked.  On a `DepsClosed` registry (dependencies are
constructed, hence scanned, before their dependents) this registry-order
sweep computes exactly the deep memoized traversal. -/

/-- Hashes of the directly matched tasks (the first marking loop, lines
89-91). -/
def directInvalid (reg : List TaskNode) (matched : String → Bool) : List Nat :=
  (reg.filter (fun nd => matched nd.name)).map (fun nd => nd.hash)

/-- One `scan_task_dependencies(t)` step over the memoized marks: mark
task `i` when the walk from `i` hits an already-marked hash. -/
def scanStep (reg : List TaskNode) (inv : List Nat) (i : Nat) : List Nat :=
  if (depsAt reg i).any (fun d => decide (hashAt reg d ∈ inv)) then
    hashAt reg i :: inv
  else inv

/-- The `for t in tasks: scan_task_dependencies(t)` sweep (lines
109-110). -/
def scanAll (reg : List TaskNode) : List Nat → List Nat → List Nat
  | inv, [] => inv
  | inv, i :: rest => scanAll reg (scanStep reg inv i) rest

/-- All hashes marked invalid after the sweep. -/
def invalidScan (reg : List TaskNode) (matched : String → Bool) : List Nat :=
  scanAll reg (directInvalid reg matched) (List.range reg.length)

/-- Embedding of the non-dry-run `invalidate` effect on the store: if no
task matched directly the command returns without touching the store
(lines 93-95); otherwise `store.remove` is called on every marked hash
(lines 113-115). -/
def invalidateRun (reg : List TaskNode) (matched : String → Bool)
    (st : JStore Nat) : JStore Nat :=
  if (directInvalid reg matched).isEmpty then st
  else (invalidScan reg matched).foldl (fun s h => storeRemove s h) st

/-- The transitive closure of the direct name match, as the claim states
it: a task is tainted when its name matches, or when some first-level
dependency is tainted (i.e. it depends directly or indirectly on a
matched task). -/
inductive Tainted (reg : List TaskNode) (matched : String → Bool) : Nat → Prop
  | direct (i : Nat) : matched (nameAt reg i) = true → Tainted reg matched i
  | viaDep (i d : Nat) : d ∈ depsAt reg i → Tainted reg matched d →
      Tainted reg matched i

/-- `scanStep` only adds marks. -/
theorem scanStep_mono (reg : List TaskNode) (inv : List Nat) (i : Nat)
    (h : Nat) (hh : h ∈ inv) : h ∈ scanStep reg inv i := by
  unfold scanStep
  split
  · exact List.mem_cons_of_mem _ hh
  · exact hh

/-- `scanAll` only adds marks. -/
theorem scanAll_mono (reg : List TaskNode) (l : List Nat) :
    ∀ inv h, h ∈ inv → h ∈ scanAll reg inv l := by
  induction l with
  | nil => intro inv h hh; exact hh
  | cons i rest ih =>
    intro inv h hh
    exact ih _ h (scanStep_mono reg inv i h hh)

/-- `scanAll` splits over list append. -/
theorem scanAll_append (reg : List TaskNode) (l1 l2 : List Nat) :
    ∀ inv, scanAll reg inv (l1 ++ l2) = scanAll reg (scanAll reg inv l1) l2 := by
  induction l1 with
  | nil => intro inv; rfl
  | cons i rest ih => intro inv; simp [scanAll, ih]

/-- A one-step sweep is a single `scanStep`. -/
theorem scanAll_singleton (reg : List TaskNode) (inv : List Nat) (i : Nat) :
    scanAll reg inv [i] = scanStep reg inv i := rfl

/-- Marks only grow along prefixes of the sweep. -/
theorem scanAll_range_mono (reg : List TaskNode) (inv : List Nat)
    (a b : Nat) (hab : a ≤ b) (h : Nat)
    (hh : h ∈ scanAll reg inv (List.range a)) :
    h ∈ scanAll reg inv (List.range b) := by
  induction b, hab using Nat.le_induction with
  | base => exact hh
  | succ b hab ih =>
    rw [List.range_succ, scanAll_append, scanAll_singleton]
    exact scanStep_mono _ _ _ _ ih

/-- Every task in the tainted closure has its hash marked by the time the
sweep has passed it. -/
theorem tainted_mem_scan (reg : List TaskNode) (matched : String → Bool)
    (hwf : DepsClosed reg) :
    ∀ i, Tainted reg matched i → i < reg.length →
      hashAt reg i ∈ scanAll reg (directInvalid reg matched)
        (List.range (i + 1)) := by
  intro i ht
  induction ht with
  | direct j hj =>
    intro hjlen
    apply scanAll_mono
    unfold directInvalid
    refine List.mem_map.mpr ⟨nodeAt reg j, List.mem_filter.mpr ⟨?_, ?_⟩, rfl⟩
    · unfold nodeAt
      rw [List.getD_eq_getElem reg _ hjlen]
      exact List.getElem_mem hjlen
    · exact hj
  | viaDep j d hd htd ih =>
    intro hjlen
    have hdj : d < j := hwf j hjlen d hd
    have hdlen : d < reg.length := lt_trans hdj hjlen
    have hmem : hashAt reg d ∈ scanAll reg (directInvalid reg matched)
        (List.range j) :=
      scanAll_range_mono reg _ (d + 1) j hdj _ (ih hdlen)
    rw [List.range_succ, scanAll_append, scanAll_singleton]
    unfold scanStep
    rw [if_pos]
    · exact List.mem_cons_self _ _
    · exact List.any_eq_true.mpr ⟨d, hd, by simpa using hmem⟩

/-- A tainted task certifies that the direct-match set is non-empty. -/
theorem tainted_direct_nonempty (reg : List TaskNode) (matched : String → Bool)
    (hwf : DepsClosed reg) :
    ∀ i, Tainted reg matched i → i < reg.length →
      directInvalid reg matched ≠ [] := by
  intro i ht
  induction ht with
  | direct j hj =>
    intro hjlen hemp
    have : hashAt reg j ∈ directInvalid reg matched := by
      unfold directInvalid
      refine List.mem_map.mpr ⟨nodeAt reg j, List.mem_filter.mpr ⟨?_, hj⟩, rfl⟩
      unfold nodeAt
      rw [List.getD_eq_getElem reg _ hjlen]
      exact List.getElem_mem hjlen
    rw [hemp] at this
    exact List.not_mem_nil _ this
  | viaDep j d hd htd ih =>
    intro hjlen
    exact ih (lt_trans (hwf j hjlen d hd) hjlen)

/-- Removal semantics: a removed hash cannot be loaded. -/
theorem storeRemove_canLoad_self {κ : Type} [DecidableEq κ]
    (st : JStore κ) (h : κ) : storeCanLoad (storeRemove st h) h = false := by
  unfold storeCanLoad storeRemove
  rw [List.any_eq_false]
  intro kv hkv
  have := (List.mem_filter.mp hkv).2
  simpa using this

/-- Removal never resurrects an absent hash. -/
theorem storeRemove_canLoad_false {κ : Type} [DecidableEq κ]
    (st : JStore κ) (h x : κ) (habs : storeCanLoad st h = false) :
    storeCanLoad (storeRemove st x) h = false := by
  unfold storeCanLoad storeRemove
  rw [List.any_eq_false]
  intro kv hkv
  unfold storeCanLoad at habs
  rw [List.any_eq_false] at habs
  exact habs kv (List.mem_filter.mp hkv).1

/-- Folded removal never resurrects an absent hash. -/
theorem foldRemove_canLoad_false {κ : Type} [DecidableEq κ]
    (l : List κ) : ∀ (st : JStore κ) (h : κ), storeCanLoad st h = false →
      storeCanLoad (l.foldl (fun s x => storeRemove s x) st) h = false := by
  induction l with
  | nil => intro st h habs; exact habs
  | cons x rest ih =>
    intro st h habs
    exact ih _ h (storeRemove_canLoad_false st h x habs)

/-- Folding `store.remove` over a hash list deletes every listed hash. -/
theorem foldRemove_canLoad_of_mem {κ : Type} [DecidableEq κ]
    (l : List κ) : ∀ (st : JStore κ) (h : κ), h ∈ l →
      storeCanLoad (l.foldl (fun s x => storeRemove s x) st) h = false := by
  induction l with
  | nil => intro st h habs; cases habs
  | cons x rest ih =>
    intro st h hmem
    rcases List.mem_cons.mp hmem with rfl | hmem2
    · exact foldRemove_canLoad_false rest _ h (storeRemove_canLoad_self st h)
    · exact ih _ h hmem2

/-- C4: for every non-dry-run invalidation, every task in the transitive
closure of the direct name match (matched tasks and all tasks depending
on them directly or indirectly) has `store.remove` applied to its hash,
so afterwards `can_load` is false for each of their hashes. -/
theorem invalidate_closure_not_loadable (reg : List TaskNode)
    (matched : String → Bool) (st : JStore Nat) (i : Nat)
    (hwf : DepsClosed reg) (hi : i < reg.length)
    (ht : Tainted reg matched i) :
    storeCanLoad (invalidateRun reg matched st) (hashAt reg i) = false := by
  unfold invalidateRun
  rw [if_neg]
  · apply foldRemove_canLoad_of_mem
    have hm := tainted_mem_scan reg matched hwf i ht hi
    unfold invalidScan
    exact scanAll_range_mono reg _ (i + 1) reg.length hi _ hm
  · simp only [List.isEmpty_iff]
    exact tainted_direct_nonempty reg matched hwf i ht hi

/-- Registry for the C4 witness: `b` (position 1) depends on `a`
(position 0); the pattern matches `a` by name. -/
def regC4 : List TaskNode :=
  [⟨"jugfile.a", 100, []⟩, ⟨"jugfile.b", 101, [0]⟩]

/-- Witness for `invalidate_closure_not_loadable`: invalidating `a` also
removes the result of the dependent `b` (hash 101) from a store holding
both results. -/
theorem invalidate_closure_not_loadable_witness :
    storeCanLoad
      (invalidateRun regC4 (fun nm => nm == "jugfile.a") [(100, 1), (101, 2)])
      (hashAt regC4 1) = false :=
  invalidate_closure_not_loadable regC4 (fun nm => nm == "jugfile.a")
    [(100, 1), (101, 2)] 1 (by unfold DepsClosed; decide) (by decide)
    (Tainted.viaDep 1 0 (by decide) (Tainted.direct 0 (by decide)))

/-! ## Claim C6: invalidation pattern compilation

Embedding of the pattern dispatch at the top of `invalidate`
(`jug/jug.py` lines 72-91).  `re.match(r'/.*?/', invalid_name)` succeeds
exactly when the pattern starts with `/` and another `/` follows (the
regular-expression form).  Otherwise, a pattern containing `.` is
compiled with its dots escaped, and a bare name is compiled as `\.`
followed by the name; both are then applied with `re.search`, i.e. the
compiled literal is looked for at every position of the task name, not
anchored at the end.  Patterns are assumed to consist of literal
characters (identifier characters and dots, no newlines and no other
regex metacharacters), which is the domain the claim quantifies over; on
that domain `re.search` of the escaped pattern is exactly substring
search. -/

/-- Test for the `/.../` regular-expression form (`re.match(r'/.*?/',
p)`). -/
def isRegexFormPat (p : String) : Bool :=
  match p.data with
  | '/' :: rest => rest.contains '/'
  | _ => false

/-- Compiled form of an invalidation pattern: the regular-expression
branch (whose semantics is outside this model and outside claim C6), or a
literal to be searched for anywhere in the task name. -/
inductive PatternKind where
  | regexPat
  | searchLit (lit : List Char)
deriving DecidableEq, Repr

/-- The three-way dispatch of `invalidate` (lines 72-81): `/.../` is a
regex; a dotted pattern is searched literally (its dots are escaped); a
bare name is searched as `\.` + name. -/
def compileInvalidPattern (p : String) : PatternKind :=
  if isRegexFormPat p then .regexPat
  else if p.data.contains '.' then .searchLit p.data
  else .searchLit ('.' :: p.data)

/-- `re.search` of a literal pattern: try a prefix match at every
position. -/
def litSearch : List Char → List Char → Bool
  | pat, [] => pat.isEmpty
  | pat, c :: rest => pat.isPrefixOf (c :: rest) || litSearch pat rest

/-- Whether `re.search(invalidate_re, t.name)` matches (line 90).  The
`regexPat` arm returns `false` as a placeholder: every theorem about this
function carries the hypothesis `isRegexFormPat p = false`, so that arm
is never exercised. -/
def matchesName (p nm : String) : Bool :=
  match compileInvalidPattern p with
  | .regexPat => false
  | .searchLit lit => litSearch lit nm.data

/-- Literal search finds the pattern exactly when it occurs as a
contiguous substring. -/
theorem litSearch_iff_infix (pat s : List Char) :
    litSearch pat s = true ↔ pat <:+: s := by
  induction s with
  | nil => simp [litSearch, List.isEmpty_iff, List.infix_nil]
  | cons c rest ih =>
    simp [litSearch, Bool.or_eq_true, List.isPrefixOf_iff_prefix, ih,
      List.infix_cons_iff]

/-- C6 counterexample: the bare pattern `f` matches the task name
`mymod.func` (because `re.search` finds `.f` in the middle of the name),
although that name does not end with the suffix `.f`; so the directly
matched set is not "exactly the names with suffix `.name`". -/
theorem invalidate_pattern_counterexample :
    matchesName "f" "mymod.func" = true ∧
      (('.' :: "f".data).isSuffixOf "mymod.func".data) = false ∧
      isRegexFormPat "f" = false ∧ "f".data.contains '.' = false := by
  decide

/-- C6 amended: for a non-regex pattern of literal characters, a bare
pattern `p` (no dot) directly matches exactly the task names containing
`.p` as a contiguous substring (not only as a suffix), and a dotted
pattern matches exactly the task names containing `p` as a contiguous
substring (not only the names equal to `p`). -/
theorem invalidate_pattern_amended (p nm : String)
    (hreg : isRegexFormPat p = false) :
    (p.data.contains '.' = false →
      (matchesName p nm = true ↔ ('.' :: p.data) <:+: nm.data))
    ∧ (p.data.contains '.' = true →
      (matchesName p nm = true ↔ p.data <:+: nm.data)) := by
  constructor
  · intro hdot
    have hdot2 : ¬ ('.' ∈ p.data) := by simpa using hdot
    simp [matchesName, compileInvalidPattern, hreg, hdot2, litSearch_iff_infix]
  · intro hdot
    have hdot2 : ('.' ∈ p.data) := by simpa using hdot
    simp [matchesName, compileInvalidPattern, hreg, hdot2, litSearch_iff_infix]

/-- Witness for `invalidate_pattern_amended` at the bare pattern `f` and
name `mymod.func`. -/
theorem invalidate_pattern_amended_witness :
    ("f".data.contains '.' = false →
      (matchesName "f" "mymod.func" = true ↔
        ('.' :: "f".data) <:+: "mymod.func".data))
    ∧ ("f".data.contains '.' = true →
      (matchesName "f" "mymod.func" = true ↔
        "f".data <:+: "mymod.func".data)) :=
  invalidate_pattern_amended "f" "mymod.func" (by decide)

/-! ## Claim C1: the hash kernel

Modelled from the spec: `jug/hash.py` (imported by `jug/task.py` as
`new_hash_object`, `hash_update`, `hash_one`) is not under `src/`, so the
hash kernel is modelled from §4.1 of the specification: the hash of a
Task is a 40-hex-character digest over (a) the bytes of the fully
qualified name, (b) each positional argument in order tagged with its
index, (c) each keyword argument tagged with its key in insertion order;
argument hashing is recursive over the supported value kinds, with
ordered sequences tagged by kind, mappings hashed pairwise in insertion
order, set members hashed in sorted digest order, a Task contributing its
own hash and a Tasklet its kind tag plus base and operation hashes.  The
digest compression function itself is an executable stand-in for the
cryptographic hash (the claims concern determinism and output format,
not collision resistance). -/

/-- Hex digit for a value below 16. -/
def hexChar (n : Nat) : Char :=
  if n < 10 then Char.ofNat (48 + n) else Char.ofNat (87 + n)

/-- Fixed-width big-endian hex rendering: `d` digits of `n`. -/
def toHexAux : Nat → Nat → List Char
  | 0, _ => []
  | d + 1, n => toHexAux d (n / 16) ++ [hexChar (n % 16)]

/-- The `hexdigest()` of a digest state: 40 hex characters. -/
def hexdigest40 (state : Nat) : String :=
  ⟨toHexAux 40 state⟩

/-- Mixing one byte into a digest state (stand-in compression
function). -/
def hashStep (h b : Nat) : Nat :=
  (h * 131 + (b + 1)) % 16 ^ 40

/-- Mixing a byte string into a digest state (`M.update(...)`). -/
def hashBytes (h0 : Nat) (bs : List Nat) : Nat :=
  bs.foldl hashStep h0

/-- Initial digest state (`new_hash_object()`). -/
def hashInit : Nat := 5381

/-- Byte encoding of a string (UTF-8 abstracted to code points). -/
def strBytes (s : String) : List Nat :=
  s.data.map Char.toNat

/-- Supported value kinds of the recursive argument hash (§4.1):
primitive scalars via their canonical encoding, lists and tuples tagged
by kind, mappings pairwise, sets, Task references via their digest,
Tasklets via base and operation digests, custom-hashable objects via the
bytes they return. -/
inductive HVal where
  | prim (bytes : List Nat)
  | listH (xs : List HVal)
  | tupleH (xs : List HVal)
  | dictH (xs : List (HVal × HVal))
  | setH (xs : List HVal)
  | taskH (digest : String)
  | taskletH (baseDigest : String) (opDigest : String)
  | customH (bytes : List Nat)

/-- Insertion step of the digest sort used for set members. -/
def insertStr (x : String) : List String → List String
  | [] => [x]
  | y :: ys => if y < x then y :: insertStr x ys else x :: y :: ys

/-- Sorting member digests (spec §4.1: "members hashed in sorted digest
order"). -/
def sortStrs : List String → List String
  | [] => []
  | x :: xs => insertStr x (sortStrs xs)

/-- Concatenated bytes of a digest list. -/
def concatStrs (l : List String) : List Nat :=
  l.flatMap strBytes

mutual

/-- Recursive digest of one value (`hash_one`): the value's kind tag and
the digests of its parts, compressed to 40 hex characters. -/
def hvalDigest : HVal → String
  | .prim bs => hexdigest40 (hashBytes hashInit (0 :: bs))
  | .listH xs => hexdigest40 (hashBytes hashInit (1 :: digestsConcat xs))
  | .tupleH xs => hexdigest40 (hashBytes hashInit (2 :: digestsConcat xs))
  | .dictH ps => hexdigest40 (hashBytes hashInit (3 :: pairDigestsConcat ps))
  | .setH xs => hexdigest40 (hashBytes hashInit
      (4 :: concatStrs (sortStrs (digestList xs))))
  | .taskH d => hexdigest40 (hashBytes hashInit (5 :: strBytes d))
  | .taskletH b f => hexdigest40 (hashBytes hashInit
      (6 :: (strBytes b ++ strBytes f)))
  | .customH bs => hexdigest40 (hashBytes hashInit (7 :: bs))

/-- Digest bytes of the elements of an ordered sequence, in index
order. -/
def digestsConcat : List HVal → List Nat
  | [] => []
  | x :: xs => strBytes (hvalDigest x) ++ digestsConcat xs

/-- Digest bytes of mapping entries, keys first then values, in
insertion order. -/
def pairDigestsConcat : List (HVal × HVal) → List Nat
  | [] => []
  | p :: ps => strBytes (hvalDigest p.1) ++ strBytes (hvalDigest p.2) ++
      pairDigestsConcat ps

/-- Digests of set members (before sorting). -/
def digestList : List HVal → List String
  | [] => []
  | x :: xs => hvalDigest x :: digestList xs

end

/-- Python `enumerate(args)` with the index rendered as the argument's
tag. -/
def enumTags : Nat → List HVal → List (List Nat × HVal)
  | _, [] => []
  | i, a :: as => ([i], a) :: enumTags (i + 1) as

/-- Model of `hash_update(M, pairs)`: mix each `(tag, value)` pair into
the state, the tag bytes followed by the value's recursive digest. -/
def hashUpdateModel (M : Nat) (pairs : List (List Nat × HVal)) : Nat :=
  pairs.foldl (fun m p => hashBytes m (p.1 ++ strBytes (hvalDigest p.2))) M

/-- Model of `Task._compute_set_hash` (`jug/task.py` lines 292-299)
over the spec-modelled kernel: mix the name bytes, then
`enumerate(self.args)`, then `self.kwargs.items()`, and render the
hexdigest. -/
def taskSetHash (name : String) (args : List HVal)
    (kwargs : List (String × HVal)) : String :=
  hexdigest40 (hashUpdateModel
    (hashUpdateModel (hashBytes hashInit (strBytes name)) (enumTags 0 args))
    (kwargs.map (fun p => (strBytes p.1, p.2))))

/-- `hashUpdateModel` factors through the tag bytes and the recursive
digest of each entry. -/
theorem hashUpdateModel_congr :
    ∀ (l1 l2 : List (List Nat × HVal)),
      l1.map (fun p => (p.1, hvalDigest p.2)) =
        l2.map (fun p => (p.1, hvalDigest p.2)) →
      ∀ M, hashUpdateModel M l1 = hashUpdateModel M l2 := by
  intro l1
  induction l1 with
  | nil =>
    intro l2 h M
    cases l2 with
    | nil => rfl
    | cons q qs => simp at h
  | cons p ps ih =>
    intro l2 h M
    cases l2 with
    | nil => simp at h
    | cons q qs =>
      simp only [List.map_cons, List.cons.injEq, Prod.mk.injEq] at h
      obtain ⟨⟨htag, hdig⟩, hrest⟩ := h
      simp only [hashUpdateModel, List.foldl_cons]
      rw [htag, hdig]
      exact ih qs hrest _

/-- Positional tags line up when the recursive digests line up. -/
theorem enumTags_digest_congr :
    ∀ (a1 a2 : List HVal), a1.map hvalDigest = a2.map hvalDigest →
      ∀ i, (enumTags i a1).map (fun p => (p.1, hvalDigest p.2)) =
        (enumTags i a2).map (fun p => (p.1, hvalDigest p.2)) := by
  intro a1
  induction a1 with
  | nil =>
    intro a2 h i
    cases a2 with
    | nil => rfl
    | cons b bs => simp at h
  | cons a as ih =>
    intro a2 h i
    cases a2 with
    | nil => simp at h
    | cons b bs =>
      simp only [List.map_cons, List.cons.injEq] at h
      obtain ⟨hd, ht⟩ := h
      simp only [enumTags, List.map_cons, Prod.mk.injEq, List.cons.injEq,
        true_and]
      exact ⟨hd, ih bs ht (i + 1)⟩

/-- The hex rendering always has exactly `d` characters. -/
theorem toHexAux_length (d : Nat) : ∀ n, (toHexAux d n).length = d := by
  induction d with
  | zero => intro n; rfl
  | succ d ih =>
    intro n
    simp [toHexAux, ih]

/-- Hex digits of values below 16 come from the hex alphabet. -/
theorem hexChar_mem_alphabet : ∀ m, m < 16 →
    hexChar m ∈ "0123456789abcdef".data := by decide

/-- Every character of the hex rendering is a hex digit. -/
theorem toHexAux_mem (d : Nat) : ∀ n c, c ∈ toHexAux d n →
    c ∈ "0123456789abcdef".data := by
  induction d with
  | zero => intro n c hc; cases hc
  | succ d ih =>
    intro n c hc
    rcases List.mem_append.mp hc with h | h
    · exact ih _ c h
    · rcases List.mem_singleton.mp h with rfl
      exact hexChar_mem_alphabet _ (Nat.mod_lt _ (by norm_num))

/-- Rendered digests have exactly 40 characters. -/
theorem hexdigest40_length (st : Nat) : (hexdigest40 st).length = 40 :=
  toHexAux_length 40 st

/-- Rendered digests consist of hex characters only. -/
theorem hexdigest40_mem (st : Nat) :
    ∀ c ∈ (hexdigest40 st).data, c ∈ "0123456789abcdef".data :=
  fun c hc => toHexAux_mem 40 st c hc

/-- C1: the task hash is a deterministic function of the qualified name
and the recursive hashes of the positional and keyword arguments — two
structurally equal tasks (same name, arguments pairwise equal by
recursive hash, keyword keys and values pairwise equal) receive the same
digest — and the digest is a 40-character hex string. -/
theorem task_hash_deterministic (name : String) (args1 args2 : List HVal)
    (kw1 kw2 : List (String × HVal))
    (hargs : args1.map hvalDigest = args2.map hvalDigest)
    (hkk : kw1.map Prod.fst = kw2.map Prod.fst)
    (hkv : kw1.map (fun p => hvalDigest p.2) =
      kw2.map (fun p => hvalDigest p.2)) :
    taskSetHash name args1 kw1 = taskSetHash name args2 kw2 ∧
      (taskSetHash name args1 kw1).length = 40 ∧
      ∀ c ∈ (taskSetHash name args1 kw1).data,
        c ∈ "0123456789abcdef".data := by
  refine ⟨?_, ?_, ?_⟩
  · simp only [taskSetHash]
    rw [hashUpdateModel_congr (enumTags 0 args1) (enumTags 0 args2)
      (enumTags_digest_congr args1 args2 hargs 0)]
    congr 1
    apply hashUpdateModel_congr
    have hlen : kw1.length = kw2.length := by
      have := congrArg List.length hkk
      simpa using this
    clear hargs
    induction kw1 generalizing kw2 with
    | nil =>
      cases kw2 with
      | nil => rfl
      | cons q qs => simp at hlen
    | cons p ps ih =>
      cases kw2 with
      | nil => simp at hlen
      | cons q qs =>
        simp only [List.map_cons, List.cons.injEq] at hkk hkv
        simp only [List.map_cons, List.cons.injEq, Prod.mk.injEq]
        refine ⟨⟨by rw [hkk.1], hkv.1⟩, ?_⟩
        exact ih qs hkk.2 hkv.2 (by simpa using congrArg List.length hkk.2)
  · exact hexdigest40_length _
  · exact hexdigest40_mem _

/-- Witness for `task_hash_deterministic`: two syntactically identical
single-argument tasks. -/
theorem task_hash_deterministic_witness :
    taskSetHash "jugfile.f" [HVal.prim [1]] [] =
        taskSetHash "jugfile.f" [HVal.prim [1]] [] ∧
      (taskSetHash "jugfile.f" [HVal.prim [1]] []).length = 40 ∧
      ∀ c ∈ (taskSetHash "jugfile.f" [HVal.prim [1]] []).data,
        c ∈ "0123456789abcdef".data :=
  task_hash_deterministic "jugfile.f" [HVal.prim [1]] [HVal.prim [1]] [] []
    rfl rfl rfl

/-! ## Claim C8: the value codec

Embedding of `encode`/`encode_to` and `decode`/`decode_from`
(`jug/backends/encode.py`, lines 100-146 and 224-265).  The jug-owned
structure is modelled exactly: `None` encodes to the empty byte string
without entering the compression layer; otherwise the first encoder of
`encoder_set` whose `can_encode` accepts the value writes its one-byte
prefix followed by its payload, all wrapped in the compression stream;
decoding decompresses, reads one prefix byte (empty stream means `None`),
and dispatches to the encoder with that prefix (unknown prefix raises).
The embedded encoders (`pickle`, `numpy.save`) and the `zlib` layer are
external collaborators (§1, §4.5: "any stable encoder works"), so they
are parameters constrained by their documented contract: compression is
lossless, and each encoder's `decode_from` inverts its `write` on the
values it accepts. -/

/-- One entry of `encoder_set`: prefix byte, `can_encode`, payload
writer, payload decoder. -/
structure EncoderImpl (V : Type) where
  prefixByte : Nat
  canEnc : V → Bool
  payload : V → List Nat
  decodePayload : List Nat → Option V

/-- Embedding of `encode(obj)` (lines 100-146): `None` gives `b""`;
otherwise the first accepting encoder's prefixed payload is compressed;
`none` models the `ValueError` when no encoder accepts. -/
def encodeBytes {V : Type} (es : List (EncoderImpl V)) (isNoneV : V → Bool)
    (comp : List Nat → List Nat) (v : V) : Option (List Nat) :=
  if isNoneV v then some []
  else
    match es.find? (fun e => e.canEnc v) with
    | none => none
    | some e => some (comp (e.prefixByte :: e.payload v))

/-- Embedding of `decode(s)` (lines 224-265): decompress, read one
prefix byte (an empty stream decodes to `None`), dispatch on the prefix;
`none` models the unknown-prefix `IOError`. -/
def decodeBytes {V : Type} (es : List (EncoderImpl V)) (noneV : V)
    (decomp : List Nat → List Nat) (s : List Nat) : Option V :=
  match decomp s with
  | [] => some noneV
  | p :: rest =>
    match es.find? (fun e => e.prefixByte == p) with
    | none => none
    | some e => e.decodePayload rest

/-- With pairwise distinct prefixes, prefix dispatch recovers exactly the
encoder that wrote the stream. -/
theorem find_by_prefix_self {V : Type} (es : List (EncoderImpl V))
    (e : EncoderImpl V) (hmem : e ∈ es)
    (hdist : es.Pairwise (fun a b => a.prefixByte ≠ b.prefixByte)) :
    es.find? (fun x => x.prefixByte == e.prefixByte) = some e := by
  induction es with
  | nil => cases hmem
  | cons a rest ih =>
    rcases List.mem_cons.mp hmem with rfl | hmem2
    · simp [List.find?]
    · have hne : a.prefixByte ≠ e.prefixByte :=
        (List.pairwise_cons.mp hdist).1 e hmem2
      have : (a.prefixByte == e.prefixByte) = false := by
        simpa using hne
      simp only [List.find?, this]
      exact ih hmem2 (List.pairwise_cons.mp hdist).2

/-- C8: whenever the codec can encode a value (`encode` succeeds with
byte string `bs`), decoding `bs` succeeds and re-encoding the decoded
value yields `bs` again — `encode(decode(encode(v))) == encode(v)` —
provided the external collaborators meet their contract: the compression
layer is lossless on streams and on the empty string, the designated
`None` value is recognized as `None`, each embedded encoder's payload
decoder inverts its writer on accepted values, and encoder prefixes are
pairwise distinct. -/
theorem encode_decode_encode_idempotent {V : Type}
    (es : List (EncoderImpl V)) (noneV : V) (isNoneV : V → Bool)
    (comp decomp : List Nat → List Nat)
    (hcd : ∀ s, decomp (comp s) = s)
    (hde : decomp [] = [])
    (hnone : isNoneV noneV = true)
    (hrt : ∀ e ∈ es, ∀ v, e.canEnc v = true →
      e.decodePayload (e.payload v) = some v)
    (hdist : es.Pairwise (fun a b => a.prefixByte ≠ b.prefixByte))
    (v : V) (bs : List Nat)
    (henc : encodeBytes es isNoneV comp v = some bs) :
    ∃ v2, decodeBytes es noneV decomp bs = some v2 ∧
      encodeBytes es isNoneV comp v2 = some bs := by
  unfold encodeBytes at henc
  by_cases hv : isNoneV v = true
  · rw [if_pos hv] at henc
    obtain rfl : ([] : List Nat) = bs := by simpa using henc
    refine ⟨noneV, ?_, ?_⟩
    · unfold decodeBytes
      rw [hde]
    · unfold encodeBytes
      rw [if_pos hnone]
  · rw [if_neg hv] at henc
    cases hfind : es.find? (fun e => e.canEnc v) with
    | none => rw [hfind] at henc; cases henc
    | some e =>
      rw [hfind] at henc
      have hmem : e ∈ es := List.mem_of_find?_eq_some hfind
      have hcan : e.canEnc v = true := by
        have h2 := List.find?_some hfind
        simpa using h2
      obtain rfl : comp (e.prefixByte :: e.payload v) = bs := by
        simpa using henc
      refine ⟨v, ?_, ?_⟩
      · unfold decodeBytes
        rw [hcd]
        show (match List.find? (fun x => x.prefixByte == e.prefixByte) es with
          | none => (none : Option V)
          | some e2 => e2.decodePayload (e.payload v)) = some v
        rw [find_by_prefix_self es e hmem hdist]
        exact hrt e hmem v hcan
      · unfold encodeBytes
        rw [if_neg hv, hfind]

/-- Concrete compression layer for the witness (prepends the zlib
header bytes). -/
def cComp : List Nat → List Nat := fun s => 120 :: 156 :: s

/-- Concrete decompression layer for the witness. -/
def cDecomp : List Nat → List Nat := fun s =>
  match s with
  | 120 :: 156 :: r => r
  | _ => []

/-- Concrete single-encoder set for the witness (a pickle-like encoder
with prefix byte 80, accepting every value of `Option Bool`). -/
def cEncoders : List (EncoderImpl (Option Bool)) :=
  [{ prefixByte := 80,
     canEnc := fun _ => true,
     payload := fun v =>
       match v with
       | none => [0]
       | some false => [1]
       | some true => [2],
     decodePayload := fun l =>
       match l with
       | [0] => some none
       | [1] => some (some false)
       | [2] => some (some true)
       | _ => none }]

/-- Witness for `encode_decode_encode_idempotent`: the concrete codec on
the value `some true`, whose encoding is `[120, 156, 80, 2]`. -/
theorem encode_decode_encode_idempotent_witness :
    ∃ v2, decodeBytes cEncoders (none : Option Bool) cDecomp
        [120, 156, 80, 2] = some v2 ∧
      encodeBytes cEncoders Option.isNone cComp v2 =
        some [120, 156, 80, 2] :=
  encode_decode_encode_idempotent cEncoders none Option.isNone cComp cDecomp
    (fun s => rfl) rfl rfl (by decide) (by decide) (some true)
    [120, 156, 80, 2] rfl

/-! ## Claim C9: `listlocks` of the key-value-service backend

Embedding of `redis_store` (`jug/backends/redis_store.py`).  The remote
database is an association list of string keys.  `redis_key(key_type,
name)` builds `key_type + ":" + self.prefix + name` (line 76-77);
results live under `result:`, locks under `lock:` (`_resultname`,
`_lockname`); a lock is held for a hash exactly when its `lock:` key is
present (`redis_lock.get` creates it via GETSET, `release` deletes it).
`listlocks` (lines 153-158) enumerates the keys matching the `result:`
prefix — the same body as `list` — and strips that prefix. -/

/-- Remote key-value database contents. -/
def RedisDB : Type := List (String × Nat)

/-- Key layout `key_type + ":" + prefix + name` of `redis_store.redis_key`. -/
def redisKey (keyType pre nm : String) : String :=
  keyType ++ ":" ++ pre ++ nm

/-- Byte-wise prefix test on strings. -/
def strIsPre (p s : String) : Bool :=
  p.data.isPrefixOf s.data

/-- Dropping the first `n` characters of a string (`ex[len(prefix):]`). -/
def strDropChars (n : Nat) (s : String) : String :=
  ⟨s.data.drop n⟩

/-- `redis.keys(pfx + "*")`: every stored key starting with `pfx`. -/
def redisKeys (db : RedisDB) (pfx : String) : List String :=
  ((db : List (String × Nat)).filter (fun kv => strIsPre pfx kv.1)).map
    (fun kv => kv.1)

/-- Embedding of `redis_store.listlocks` (lines 153-158): the scanned
namespace is `result:` + prefix, exactly as in `list`. -/
def redisListlocks (pre : String) (db : RedisDB) : List String :=
  (redisKeys db (redisKey "result" pre "")).map
    (fun k => strDropChars (redisKey "result" pre "").length k)

/-- Hashes whose lock entry is currently held: the keys in the `lock:`
namespace, as created by `redis_lock.get` on `_lockname(hash)`. -/
def redisHeldLocks (pre : String) (db : RedisDB) : List String :=
  (redisKeys db (redisKey "lock" pre "")).map
    (fun k => strDropChars (redisKey "lock" pre "").length k)

/-- Database for the C9 check: one held lock for hash `h1`, one stored
result for hash `r1`. -/
def dbC9 : RedisDB :=
  [(redisKey "lock" "/" "h1", 1), (redisKey "result" "/" "r1", 5)]

/-- C9: `listlocks` enumerates the `result:` namespace instead of the
`lock:` namespace — on a store holding exactly one lock (`h1`) and one
result (`r1`), it yields `[r1]` while the held locks are `[h1]`; it is
the verbatim body of `list`, contradicting its documented purpose of
enumerating held locks. -/
theorem redis_listlocks_wrong_namespace :
    redisListlocks "/" dbC9 = ["r1"] ∧ redisHeldLocks "/" dbC9 = ["h1"] ∧
      (["r1"] : List String) ≠ ["h1"] := by
  refine ⟨by decide, by decide, by decide⟩
